import Mathlib

/-!
Verification of the Right-Route AI voice module (audio capture / VAD,
transcription client, route extractor, abbreviation expansion).

Shallow embedding notes:

* `record_audio` (src/stt_module.py): the microphone stream is modelled as a
  function `mic : Nat → List Int` giving the int16 samples of each frame, and
  the `while frame_count < max_frames` loop as fuel-indexed recursion with
  `fuel = max_frames - frame_count`.  The float comparison
  `np.sqrt(np.mean(data**2)) >= 1500` is embedded as the equivalent exact
  integer comparison `1500^2 * len(data) <= sum of squares` (with the numpy
  convention that the comparison is false on an empty frame, where the mean
  is NaN).
* `transcribe_audio` / `extract_routes` (src/stt_module.py,
  src/route_parser.py): the Google STT and OpenAI backends are modelled as
  oracles passed in as functions; the embedding records the requests issued.
  A Python return value of `None` is the `noneResult` constructor.
* `expand_abbreviations` (src/route_parser.py): the calls
  `re.sub(r'\b' + abbr + r'\b', full, s, flags=re.IGNORECASE)` and
  `re.sub(r'\b' + abbr + r'(?=\s|,|$)', full, s, flags=re.IGNORECASE)` are
  embedded by `subRuns`.  For a nonempty alphabetic `abbr`, a match of
  `\babbr\b` is exactly a maximal run of word characters that equals `abbr`
  case-insensitively (both `\b` force the run to start and end at the match),
  and a match of `\babbr(?=\s|,|$)` is such a run whose following character
  is whitespace, a comma, or the end of the string.  `re.sub` replaces every
  such (necessarily disjoint) match left to right, which is what `subRuns`
  does run by run.  ASCII word characters are assumed, matching the data of
  this application.
-/

/-- Python regex word character `\w` (ASCII range, as used by this app). -/
def isWordChar (c : Char) : Bool := c.isAlphanum || c == '_'

def toLowerList (l : List Char) : List Char := l.map Char.toLower

/-- Case-insensitive equality of character lists (`re.IGNORECASE`). -/
def ciEq (a b : List Char) : Bool := toLowerList a == toLowerList b

/-- One substitution rule: `bare = false` embeds `\babbr\b`,
`bare = true` embeds `\babbr(?=\s|,|$)` (the BASIC_DIRECTIONS pass). -/
structure SubRule where
  abbr : List Char
  repl : List Char
  bare : Bool
deriving DecidableEq, Repr

/-- Python `\s` on the ASCII range. -/
def isSpaceChar (c : Char) : Bool :=
  c == ' ' || c == '\t' || c == '\n' || c == '\r' || c == '\x0b' || c == '\x0c'

/-- The lookahead `(?=\s|,|$)` applied to the character following a run. -/
def sepOk : Option Char → Bool
  | none => true
  | some c => isSpaceChar c || c == ','

/-- Whether a rule's pattern matches a maximal word-character run `run`
whose following character is `nc` (`none` at end of string). -/
def ruleFires (R : SubRule) (run : List Char) (nc : Option Char) : Bool :=
  ciEq run R.abbr && (!R.bare || sepOk nc)

/-- Worker for `subRuns`, structurally recursive on a fuel argument so that
it reduces in the kernel.  `subRuns` always supplies enough fuel (the string
length); the `0, s => s` branch is then unreachable. -/
def subRunsF (f : List Char → Option Char → List Char) : Nat → List Char → List Char
  | _, [] => []
  | 0, s => s
  | fuel + 1, c :: s' =>
    if isWordChar c then
      f ((c :: s').takeWhile isWordChar) ((c :: s').dropWhile isWordChar).head? ++
        subRunsF f fuel ((c :: s').dropWhile isWordChar)
    else
      c :: subRunsF f fuel s'

/-- Replace each maximal word-character run `r` (with following character
`nc`, `none` at end of string) by `f r nc`, leaving all non-word characters
in place.  This is `re.sub` for the word-boundary patterns described in the
header comment. -/
def subRuns (f : List Char → Option Char → List Char) (s : List Char) : List Char :=
  subRunsF f s.length s

/-- src/route_parser.py `STATE_ABBREVIATIONS`, in source (insertion) order. -/
def STATE_ABBREVIATIONS : List (String × String) :=
  [("AL", "Alabama"), ("AK", "Alaska"), ("AZ", "Arizona"), ("AR", "Arkansas"),
   ("CA", "California"), ("CO", "Colorado"), ("CT", "Connecticut"),
   ("DE", "Delaware"), ("FL", "Florida"), ("GA", "Georgia"), ("HI", "Hawaii"),
   ("ID", "Idaho"), ("IL", "Illinois"), ("IN", "Indiana"), ("IA", "Iowa"),
   ("KS", "Kansas"), ("KY", "Kentucky"), ("LA", "Louisiana"), ("ME", "Maine"),
   ("MD", "Maryland"), ("MA", "Massachusetts"), ("MI", "Michigan"),
   ("MN", "Minnesota"), ("MS", "Mississippi"), ("MO", "Missouri"),
   ("MT", "Montana"), ("NE", "Nebraska"), ("NV", "Nevada"),
   ("NH", "New Hampshire"), ("NJ", "New Jersey"), ("NM", "New Mexico"),
   ("NY", "New York"), ("NC", "North Carolina"), ("ND", "North Dakota"),
   ("OH", "Ohio"), ("OK", "Oklahoma"), ("OR", "Oregon"),
   ("PA", "Pennsylvania"), ("RI", "Rhode Island"), ("SC", "South Carolina"),
   ("SD", "South Dakota"), ("TN", "Tennessee"), ("TX", "Texas"),
   ("UT", "Utah"), ("VT", "Vermont"), ("VA", "Virginia"),
   ("WA", "Washington"), ("WV", "West Virginia"), ("WI", "Wisconsin"),
   ("WY", "Wyoming")]

/-- src/route_parser.py `DIRECTION_ABBREVIATIONS`. -/
def DIRECTION_ABBREVIATIONS : List (String × String) :=
  [("NB", "Northbound"), ("SB", "Southbound"), ("EB", "Eastbound"),
   ("WB", "Westbound")]

/-- src/route_parser.py `BASIC_DIRECTIONS`. -/
def BASIC_DIRECTIONS : List (String × String) :=
  [("N", "North"), ("S", "South"), ("E", "East"), ("W", "West")]

/-- The three rule tables of `expand_abbreviations`, in the order the source
applies them: state codes (`\b..\b`), then bounded directions (`\b..\b`),
then bare directions (`\b.(?=\s|,|$)`). -/
def RULES : List SubRule :=
  STATE_ABBREVIATIONS.map (fun p => ⟨p.1.toList, p.2.toList, false⟩) ++
  DIRECTION_ABBREVIATIONS.map (fun p => ⟨p.1.toList, p.2.toList, false⟩) ++
  BASIC_DIRECTIONS.map (fun p => ⟨p.1.toList, p.2.toList, true⟩)

/-- One `re.sub(pattern, full_name, result, flags=re.IGNORECASE)` call. -/
def applyRule (R : SubRule) (s : List Char) : List Char :=
  subRuns (fun run nc => if ruleFires R run nc then R.repl else run) s

/-- The body of `expand_abbreviations` after the `if not text` guard:
the three sequential for-loops over the rule tables. -/
def expandCore (s : List Char) : List Char :=
  RULES.foldl (fun acc R => applyRule R acc) s

/-- src/route_parser.py `expand_abbreviations`.  The argument is
`Option String` because Python callers may pass `None`; `if not text:
return text` returns `None` and the empty string unchanged. -/
def expand_abbreviations : Option String → Option String
  | none => none
  | some t => if t = "" then some t else some (String.mk (expandCore t.toList))

/-- The character a run is followed by: the head of the remainder of the
string if there is one, otherwise the continuation character `k`. -/
def contHead (rest : List Char) (k : Option Char) : Option Char :=
  match rest.head? with
  | some d => some d
  | none => k

/-- Worker for `AllRunsC`, fuel-structural like `subRunsF`. -/
def AllRunsCF (p : List Char → Option Char → Bool) (k : Option Char) :
    Nat → List Char → Bool
  | _, [] => true
  | 0, _ => true
  | fuel + 1, c :: s' =>
    if isWordChar c then
      p ((c :: s').takeWhile isWordChar)
        (contHead ((c :: s').dropWhile isWordChar) k) &&
      AllRunsCF p k fuel ((c :: s').dropWhile isWordChar)
    else
      AllRunsCF p k fuel s'

/-- `AllRunsC p k s`: every maximal word-character run of `s`, paired with
the character following it (or `k` if the run ends the string), satisfies
`p`.  Auxiliary notion used to state and prove properties of `subRuns`. -/
def AllRunsC (p : List Char → Option Char → Bool) (k : Option Char)
    (s : List Char) : Bool :=
  AllRunsCF p k s.length s

/-- Every maximal word-character run of `s` satisfies `p` (runs at the end of
the string get `none` as their following character). -/
def AllRuns (p : List Char → Option Char → Bool) (s : List Char) : Bool :=
  AllRunsC p none s

/-!
## Audio capture and voice-activity detection (src/stt_module.py, record_audio)
-/

/-- Sum of squared samples of a frame. -/
def sumSq (data : List Int) : Int := data.foldl (fun a x => a + x * x) 0

/-- The comparison `rms >= speech_threshold` of `record_audio`, with
`speech_threshold = 1500` and `rms = np.sqrt(np.mean(data ** 2))`:
equivalent to `1500 ^ 2 * len(data) <= sum of squares` for a nonempty frame
(sqrt is monotone), and false for an empty frame (NaN comparison). -/
def frameLoud (data : List Int) : Bool :=
  !data.isEmpty && decide ((1500 : Int) ^ 2 * data.length ≤ sumSq data)

/-- The mutable detection state threaded through the capture loop:
`silence_duration`, `has_detected_speech`, `recent_speech_frames`
of `record_audio`. -/
structure VADState where
  silence_duration : Nat
  has_detected_speech : Bool
  recent_speech_frames : Nat
deriving DecidableEq, Repr

/-- One iteration of the detection logic of `record_audio`'s loop body
(lines 130-141 of src/stt_module.py).  Note the silent branch is two
sequential `if` statements, not `if`/`else`: the frame that decrements
`recent_speech_frames` from 1 to 0 also increments `silence_duration`. -/
def vadStep (s : VADState) (data : List Int) : VADState :=
  if frameLoud data then
    ⟨0, true, 5⟩
  else
    let r := if s.recent_speech_frames > 0 then s.recent_speech_frames - 1
             else s.recent_speech_frames
    let sd := if s.has_detected_speech && decide (r = 0) then
                s.silence_duration + 1
              else s.silence_duration
    ⟨sd, s.has_detected_speech, r⟩

/-- The early-termination test of `record_audio` (line 143), applied to the
state after the current frame's update. -/
def stopCond (silence_frames_limit : Nat) (s : VADState) : Bool :=
  s.has_detected_speech && decide (silence_frames_limit ≤ s.silence_duration)
    && decide (s.recent_speech_frames = 0)

/-- Result of the capture loop: the appended frames, the final detection
state, and whether the loop ended by the silence `break` (early stop) rather
than by reaching `max_frames`. -/
structure CaptureResult where
  frames : List (List Int)
  state : VADState
  early_stop : Bool
deriving DecidableEq, Repr

/-- The `while frame_count < max_frames` loop of `record_audio`, with
`fuel = max_frames - frame_count`.  Each iteration reads frame
`mic frame_count`, appends it, updates the state, and breaks if `stopCond`
holds.  (`KeyboardInterrupt` is not modelled.) -/
def captureAux (mic : Nat → List Int) (limit : Nat) :
    Nat → Nat → VADState → List (List Int) → CaptureResult
  | _, 0, s, frames => ⟨frames, s, false⟩
  | frame_count, fuel + 1, s, frames =>
    let data := mic frame_count
    let s' := vadStep s data
    if stopCond limit s' then ⟨frames ++ [data], s', true⟩
    else captureAux mic limit (frame_count + 1) fuel s' (frames ++ [data])

/-- src/stt_module.py `record_audio`: the capture loop from its initial state
(`silence_duration = 0`, `has_detected_speech = False`,
`recent_speech_frames = 0`), parameterised by the silence frame limit and
`max_frames`. -/
def record_audio (mic : Nat → List Int) (limit max_frames : Nat) :
    CaptureResult :=
  captureAux mic limit 0 max_frames ⟨0, false, 0⟩ []

/-- `np.concatenate(frames)`: the returned audio buffer as a flat sample
list (the optional `preprocess_audio` step maps samples one-to-one and so
preserves the sample count). -/
def bufferSamples (r : CaptureResult) : List Int := r.frames.flatten

/-!
## Transcription client (src/stt_module.py, transcribe_audio)
-/

/-- Outcome of the primary batch `client.recognize` request: a transcript
(`response.results[0].alternatives[0]` present), a response with no usable
result (falls through to the streaming fallback), or a raised exception
(caught, falls through to the streaming fallback). -/
inductive RecognizeResult where
  | ok (t : String)
  | noResult
  | exn
deriving DecidableEq, Repr

/-- Outcome of the streaming fallback: a concatenated final transcript, or a
raised exception (caught; `transcribe_audio` then returns `None`). -/
inductive StreamResult where
  | ok (t : String)
  | exn
deriving DecidableEq, Repr

/-- Return value of `transcribe_audio`: `noneResult` is Python `None`
(returned both by the empty-input guard and after both recognition paths
fail), otherwise the transcript string. -/
inductive TranscribeOutcome where
  | noneResult
  | transcript (t : String)
deriving DecidableEq, Repr

/-- src/stt_module.py `transcribe_audio`, with the Google STT backend
modelled by the two oracles.  The second component counts the recognition
requests issued to the backend client (`client.recognize` and
`client.streaming_recognize`).  The `if not audio_data` guard returns `None`
before any request is built. -/
def transcribe_audio (recognize : List Nat → RecognizeResult)
    (streaming : List Nat → StreamResult) (audio_data : List Nat) :
    TranscribeOutcome × Nat :=
  if audio_data.isEmpty then (.noneResult, 0)
  else
    match recognize audio_data with
    | .ok t => (.transcript t, 1)
    | _ =>
      match streaming audio_data with
      | .ok t => (.transcript t, 2)
      | .exn => (.noneResult, 2)

/-!
## Route extraction (src/route_parser.py, extract_routes)
-/

/-- The parsed JSON object returned by the model, with the fields
`extract_routes` and `format_route_output` read via `.get`.  `none` models
an absent key. -/
structure RouteData where
  error : Option String
  corrected_text : Option String
  start_location : Option String
  end_location : Option String
  route_segments : List String
  has_routes : Option Bool
  input_was : Option String
deriving DecidableEq, Repr

/-- The `response.choices[0].message.content` of one chat-completion call,
as `extract_routes` case-splits on it: empty/whitespace content, content
that `json.loads` rejects, or a successfully parsed object. -/
inductive LLMResponse where
  | emptyText
  | invalidJson
  | parsed (d : RouteData)
deriving DecidableEq, Repr

/-- Outcome of one `client.chat.completions.create` call: a response, or a
raised exception carrying `str(e)`. -/
inductive LLMCallResult where
  | ok (r : LLMResponse)
  | exn (msg : String)
deriving DecidableEq, Repr

/-- One chat-completion request: the model name, the system message and the
user message (temperature and max_tokens carry no information the claims
depend on and are omitted). -/
structure ChatCall where
  model : String
  system_content : String
  user_content : String
deriving DecidableEq, Repr

/-- Return value of `extract_routes` / `extract_routes_fallback`:
`noneResult` is Python `None` (every failure path), `routeData d` is the
parsed dictionary. -/
inductive ExtractResult where
  | noneResult
  | routeData (d : RouteData)
deriving DecidableEq, Repr

/-- src/route_parser.py `ROUTE_EXTRACTION_PROMPT`.  Stands for the fixed
multi-paragraph system-prompt literal of the source (only its first sentence
is reproduced here; no claim depends on the text, only on both call sites
passing this same constant). -/
def ROUTE_EXTRACTION_PROMPT : String :=
  "You are an expert US route instruction parser and advanced speech-to-text error corrector."

/-- The user-message f-string of `extract_routes` and
`extract_routes_fallback`. -/
def userContent (transcribed_text : String) : String :=
  "Correct and parse this route instruction transcription: " ++ transcribed_text

/-- Python truthiness of `route_data.get('error')`: true exactly for a
present, nonempty string. -/
def pyTruthyStr : Option String → Bool
  | none => false
  | some s => !(s == "")

/-- `needle in hay` on character lists (Python `in` for strings). -/
def containsSub (needle : List Char) : List Char → Bool
  | [] => needle.isEmpty
  | c :: rest => needle.isPrefixOf (c :: rest) || containsSub needle rest

/-- `error_msg.lower()`. -/
def lowerStr (s : String) : String := String.mk (toLowerList s.toList)

/-- `needle in hay.lower()` as used by `extract_routes`'s exception handler
(the needles are lowercase literals). -/
def strContains (hay needle : String) : Bool :=
  containsSub needle.toList (lowerStr hay).toList

/-- src/route_parser.py `extract_routes_fallback`: one GPT-3.5-turbo call
with the same system prompt and user message.  Any exception (including a
`json.loads` failure or empty content, which raises inside the `try`) is
caught and `None` is returned.  Note it does not re-check the `error`
marker.  The second component lists the requests issued. -/
def extract_routes_fallback (llm : ChatCall → LLMCallResult)
    (transcribed_text : String) : ExtractResult × List ChatCall :=
  let call : ChatCall :=
    ⟨"gpt-3.5-turbo", ROUTE_EXTRACTION_PROMPT, userContent transcribed_text⟩
  match llm call with
  | .ok (.parsed d) => (.routeData d, [call])
  | .ok .emptyText => (.noneResult, [call])
  | .ok .invalidJson => (.noneResult, [call])
  | .exn _ => (.noneResult, [call])

/-- src/route_parser.py `extract_routes`: one GPT-4o call; empty content,
invalid JSON and a truthy `error` field each return `None`; an exception is
matched against the three lowercase substrings in order, and only
`model_not_found` triggers the single `extract_routes_fallback` retry (whose
result is returned as-is); every other exception returns `None`.  The
second component lists the requests issued in order. -/
def extract_routes (llm : ChatCall → LLMCallResult)
    (transcribed_text : String) : ExtractResult × List ChatCall :=
  let call : ChatCall :=
    ⟨"gpt-4o", ROUTE_EXTRACTION_PROMPT, userContent transcribed_text⟩
  match llm call with
  | .ok .emptyText => (.noneResult, [call])
  | .ok .invalidJson => (.noneResult, [call])
  | .ok (.parsed d) =>
    if pyTruthyStr d.error then (.noneResult, [call])
    else (.routeData d, [call])
  | .exn msg =>
    if strContains msg "invalid_api_key" then (.noneResult, [call])
    else if strContains msg "insufficient_quota" then (.noneResult, [call])
    else if strContains msg "model_not_found" then
      let r := extract_routes_fallback llm transcribed_text
      (r.1, call :: r.2)
    else (.noneResult, [call])

set_option maxRecDepth 80000
set_option maxHeartbeats 2000000

/-!
## Lemmas about `subRuns` and `AllRuns`
-/

theorem length_dropWhile_le (p : Char → Bool) (l : List Char) :
    (l.dropWhile p).length ≤ l.length :=
  (List.dropWhile_sublist _).length_le

/-- `subRunsF` does not depend on the fuel once it covers the length. -/
theorem subRunsF_eq_of_le (f : List Char → Option Char → List Char) :
    ∀ (fuel : Nat) (s : List Char) (fuel' : Nat), s.length ≤ fuel →
      s.length ≤ fuel' → subRunsF f fuel s = subRunsF f fuel' s := by
  intro fuel
  induction fuel with
  | zero =>
    intro s fuel' hs _
    have : s = [] := List.length_eq_zero.mp (Nat.le_zero.mp hs)
    subst this
    cases fuel' <;> rfl
  | succ n ih =>
    intro s fuel' hs hs'
    cases s with
    | nil => cases fuel' <;> rfl
    | cons c s' =>
      cases fuel' with
      | zero => simp at hs'
      | succ m =>
        simp only [subRunsF]
        cases hw : isWordChar c with
        | true =>
          simp only [if_true]
          have hdw : ((c :: s').dropWhile isWordChar).length ≤ s'.length := by
            rw [List.dropWhile_cons, if_pos hw]
            exact length_dropWhile_le _ _
          have h1 : ((c :: s').dropWhile isWordChar).length ≤ n := by
            simp only [List.length_cons] at hs; omega
          have h2 : ((c :: s').dropWhile isWordChar).length ≤ m := by
            simp only [List.length_cons] at hs'; omega
          rw [ih _ _ h1 h2]
        | false =>
          simp only [Bool.false_eq_true, if_false]
          have h1 : s'.length ≤ n := by
            simp only [List.length_cons] at hs; omega
          have h2 : s'.length ≤ m := by
            simp only [List.length_cons] at hs'; omega
          rw [ih _ _ h1 h2]

theorem subRuns_nil (f : List Char → Option Char → List Char) :
    subRuns f [] = [] := rfl

theorem subRuns_cons_not (f : List Char → Option Char → List Char) (c : Char)
    (s' : List Char) (h : isWordChar c = false) :
    subRuns f (c :: s') = c :: subRuns f s' := by
  simp only [subRuns, List.length_cons, subRunsF, h, Bool.false_eq_true,
    if_false]

theorem subRuns_cons_word (f : List Char → Option Char → List Char) (c : Char)
    (s' : List Char) (h : isWordChar c = true) :
    subRuns f (c :: s') =
      f ((c :: s').takeWhile isWordChar)
        ((c :: s').dropWhile isWordChar).head? ++
      subRuns f ((c :: s').dropWhile isWordChar) := by
  simp only [subRuns, List.length_cons, subRunsF, h, if_true]
  congr 1
  apply subRunsF_eq_of_le
  · rw [List.dropWhile_cons, if_pos h]
    exact length_dropWhile_le _ _
  · exact Nat.le_refl _

/-- `AllRunsCF` does not depend on the fuel once it covers the length. -/
theorem AllRunsCF_eq_of_le (p : List Char → Option Char → Bool)
    (k : Option Char) :
    ∀ (fuel : Nat) (s : List Char) (fuel' : Nat), s.length ≤ fuel →
      s.length ≤ fuel' → AllRunsCF p k fuel s = AllRunsCF p k fuel' s := by
  intro fuel
  induction fuel with
  | zero =>
    intro s fuel' hs _
    have : s = [] := List.length_eq_zero.mp (Nat.le_zero.mp hs)
    subst this
    cases fuel' <;> rfl
  | succ n ih =>
    intro s fuel' hs hs'
    cases s with
    | nil => cases fuel' <;> rfl
    | cons c s' =>
      cases fuel' with
      | zero => simp at hs'
      | succ m =>
        simp only [AllRunsCF]
        cases hw : isWordChar c with
        | true =>
          simp only [if_true]
          have h1 : ((c :: s').dropWhile isWordChar).length ≤ n := by
            rw [List.dropWhile_cons, if_pos hw]
            have := length_dropWhile_le isWordChar s'
            simp only [List.length_cons] at hs; omega
          have h2 : ((c :: s').dropWhile isWordChar).length ≤ m := by
            rw [List.dropWhile_cons, if_pos hw]
            have := length_dropWhile_le isWordChar s'
            simp only [List.length_cons] at hs'; omega
          rw [ih _ _ h1 h2]
        | false =>
          simp only [Bool.false_eq_true, if_false]
          have h1 : s'.length ≤ n := by
            simp only [List.length_cons] at hs; omega
          have h2 : s'.length ≤ m := by
            simp only [List.length_cons] at hs'; omega
          rw [ih _ _ h1 h2]

theorem AllRunsC_nil (p : List Char → Option Char → Bool) (k : Option Char) :
    AllRunsC p k [] = true := rfl

theorem AllRunsC_cons_not (p : List Char → Option Char → Bool)
    (k : Option Char) (c : Char) (s' : List Char) (h : isWordChar c = false) :
    AllRunsC p k (c :: s') = AllRunsC p k s' := by
  simp only [AllRunsC, List.length_cons, AllRunsCF, h, Bool.false_eq_true,
    if_false]

theorem AllRunsC_cons_word (p : List Char → Option Char → Bool)
    (k : Option Char) (c : Char) (s' : List Char) (h : isWordChar c = true) :
    AllRunsC p k (c :: s') =
      (p ((c :: s').takeWhile isWordChar)
         (contHead ((c :: s').dropWhile isWordChar) k) &&
       AllRunsC p k ((c :: s').dropWhile isWordChar)) := by
  simp only [AllRunsC, List.length_cons, AllRunsCF, h, if_true]
  congr 1
  apply AllRunsCF_eq_of_le
  · rw [List.dropWhile_cons, if_pos h]
    exact length_dropWhile_le _ _
  · exact Nat.le_refl _

theorem contHead_none (rest : List Char) : contHead rest none = rest.head? := by
  unfold contHead
  cases rest.head? <;> rfl

theorem contHead_nil (k : Option Char) : contHead [] k = k := rfl

theorem contHead_cons (d : Char) (l : List Char) (k : Option Char) :
    contHead (d :: l) k = some d := rfl

/-- The head of `dropWhile p l`, when present, fails `p`. -/
theorem head_dropWhile_not (p : Char → Bool) :
    ∀ (l : List Char) (c : Char), (l.dropWhile p).head? = some c →
      p c = false := by
  intro l
  induction l with
  | nil => intro c h; simp at h
  | cons d l' ih =>
    intro c h
    rw [List.dropWhile_cons] at h
    by_cases hd : p d = true
    · rw [if_pos hd] at h
      exact ih c h
    · rw [if_neg hd] at h
      simp only [List.head?_cons, Option.some.injEq] at h
      subst h
      exact Bool.not_eq_true _ ▸ (by simpa using hd)

/-- A string whose head (if any) is a non-word character has an empty
leading word run. -/
theorem takeWhile_of_headNot (t : List Char)
    (h : ∀ c, t.head? = some c → isWordChar c = false) :
    t.takeWhile isWordChar = [] := by
  cases t with
  | nil => rfl
  | cons d t' =>
    rw [List.takeWhile_cons, if_neg]
    simp [h d rfl]

theorem dropWhile_of_headNot (t : List Char)
    (h : ∀ c, t.head? = some c → isWordChar c = false) :
    t.dropWhile isWordChar = t := by
  cases t with
  | nil => rfl
  | cons d t' =>
    rw [List.dropWhile_cons, if_neg]
    simp [h d rfl]

/-- If no maximal run of `s` fires the rule, the substitution pass is the
identity: only standalone word-boundary-delimited occurrences are ever
replaced. -/
theorem applyRule_id_of_allRuns (R : SubRule) :
    ∀ (n : Nat) (s : List Char), s.length ≤ n →
      AllRuns (fun r nc => !ruleFires R r nc) s = true → applyRule R s = s := by
  intro n
  induction n with
  | zero =>
    intro s hs _
    have : s = [] := List.length_eq_zero.mp (Nat.le_zero.mp hs)
    subst this; rfl
  | succ n ih =>
    intro s hs h
    cases s with
    | nil => rfl
    | cons c s' =>
      cases hw : isWordChar c with
      | false =>
        unfold applyRule at *
        rw [subRuns_cons_not _ _ _ hw]
        unfold AllRuns at h
        rw [AllRunsC_cons_not _ _ _ _ hw] at h
        have := ih s' (by simp at hs; omega) h
        unfold applyRule at this
        rw [this]
      | true =>
        unfold applyRule at *
        rw [subRuns_cons_word _ _ _ hw]
        unfold AllRuns at h
        rw [AllRunsC_cons_word _ _ _ _ hw] at h
        rw [contHead_none] at h
        rw [Bool.and_eq_true] at h
        obtain ⟨h1, h2⟩ := h
        have hfire : ruleFires R ((c :: s').takeWhile isWordChar)
            ((c :: s').dropWhile isWordChar).head? = false := by
          simpa using h1
        rw [hfire]
        simp only [Bool.false_eq_true, if_false]
        have hlen : ((c :: s').dropWhile isWordChar).length ≤ n := by
          rw [List.dropWhile_cons, if_pos hw]
          have := length_dropWhile_le isWordChar s'
          simp only [List.length_cons] at hs; omega
        have := ih _ hlen h2
        unfold applyRule at this
        rw [this]
        exact List.takeWhile_append_dropWhile _ _

/-- `AllRunsC` is monotone in the run predicate. -/
theorem AllRunsC_mono (p q : List Char → Option Char → Bool)
    (hpq : ∀ r nc, p r nc = true → q r nc = true) :
    ∀ (n : Nat) (s : List Char) (k : Option Char), s.length ≤ n →
      AllRunsC p k s = true → AllRunsC q k s = true := by
  intro n
  induction n with
  | zero =>
    intro s k hs _
    have : s = [] := List.length_eq_zero.mp (Nat.le_zero.mp hs)
    subst this; rfl
  | succ n ih =>
    intro s k hs h
    cases s with
    | nil => rfl
    | cons c s' =>
      cases hw : isWordChar c with
      | false =>
        rw [AllRunsC_cons_not _ _ _ _ hw] at h ⊢
        exact ih s' k (by simp at hs; omega) h
      | true =>
        rw [AllRunsC_cons_word _ _ _ _ hw] at h ⊢
        rw [Bool.and_eq_true] at h ⊢
        obtain ⟨h1, h2⟩ := h
        refine ⟨hpq _ _ h1, ?_⟩
        have hlen : ((c :: s').dropWhile isWordChar).length ≤ n := by
          rw [List.dropWhile_cons, if_pos hw]
          have := length_dropWhile_le isWordChar s'
          simp only [List.length_cons] at hs; omega
        exact ih _ k hlen h2

/-- `AllRunsC` holds for a predicate that is true everywhere. -/
theorem AllRunsC_trivial (p : List Char → Option Char → Bool)
    (hp : ∀ r nc, p r nc = true) :
    ∀ (n : Nat) (s : List Char) (k : Option Char), s.length ≤ n →
      AllRunsC p k s = true := by
  intro n
  induction n with
  | zero =>
    intro s k hs
    have : s = [] := List.length_eq_zero.mp (Nat.le_zero.mp hs)
    subst this; rfl
  | succ n ih =>
    intro s k hs
    cases s with
    | nil => rfl
    | cons c s' =>
      cases hw : isWordChar c with
      | false =>
        rw [AllRunsC_cons_not _ _ _ _ hw]
        exact ih s' k (by simp at hs; omega)
      | true =>
        rw [AllRunsC_cons_word _ _ _ _ hw, Bool.and_eq_true]
        refine ⟨hp _ _, ?_⟩
        have hlen : ((c :: s').dropWhile isWordChar).length ≤ n := by
          rw [List.dropWhile_cons, if_pos hw]
          have := length_dropWhile_le isWordChar s'
          simp only [List.length_cons] at hs; omega
        exact ih _ k hlen

/-- On a single nonempty all-word run, `AllRunsC` is just the predicate. -/
theorem AllRunsC_single_run (p : List Char → Option Char → Bool)
    (k : Option Char) (c : Char) (run : List Char)
    (hall : ∀ x ∈ c :: run, isWordChar x = true) :
    AllRunsC p k (c :: run) = p (c :: run) k := by
  have hw : isWordChar c = true := hall c (List.mem_cons_self c run)
  rw [AllRunsC_cons_word _ _ _ _ hw]
  have htake : (c :: run).takeWhile isWordChar = c :: run := by
    have : ∀ x ∈ c :: run, isWordChar x = true := hall
    calc (c :: run).takeWhile isWordChar
        = ((c :: run) ++ []).takeWhile isWordChar := by simp
      _ = (c :: run) ++ [].takeWhile isWordChar :=
          List.takeWhile_append_of_pos this
      _ = c :: run := by simp
  have hdrop : (c :: run).dropWhile isWordChar = [] := by
    calc (c :: run).dropWhile isWordChar
        = ((c :: run) ++ []).dropWhile isWordChar := by simp
      _ = List.dropWhile isWordChar [] := List.dropWhile_append_of_pos hall
      _ = [] := rfl
  rw [htake, hdrop, contHead_nil, AllRunsC_nil, Bool.and_true]

/-- Appending below a non-word-headed tail: `AllRunsC` composes, with the
runs of `u` seeing the head of `t` as their continuation. -/
theorem AllRunsC_append (p : List Char → Option Char → Bool) (k : Option Char) :
    ∀ (n : Nat) (u t : List Char), u.length ≤ n →
      (∀ c, t.head? = some c → isWordChar c = false) →
      AllRunsC p (contHead t k) u = true → AllRunsC p k t = true →
      AllRunsC p k (u ++ t) = true := by
  intro n
  induction n with
  | zero =>
    intro u t hlen _ _ htk
    have : u = [] := List.length_eq_zero.mp (Nat.le_zero.mp hlen)
    subst this
    simpa using htk
  | succ n ih =>
    intro u t hlen ht hu htk
    cases u with
    | nil => simpa using htk
    | cons c u' =>
      cases hw : isWordChar c with
      | false =>
        rw [List.cons_append, AllRunsC_cons_not _ _ _ _ hw]
        rw [AllRunsC_cons_not _ _ _ _ hw] at hu
        exact ih u' t (by simp at hlen; omega) ht hu htk
      | true =>
        rw [AllRunsC_cons_word _ _ _ _ hw, Bool.and_eq_true] at hu
        obtain ⟨hu1, hu2⟩ := hu
        have hallrun : ∀ x ∈ (c :: u').takeWhile isWordChar,
            isWordChar x = true := fun x hx => List.mem_takeWhile_imp hx
        have hsplit : (c :: u').takeWhile isWordChar ++
            (c :: u').dropWhile isWordChar = c :: u' :=
          List.takeWhile_append_dropWhile _ _
        have htw : ((c :: u') ++ t).takeWhile isWordChar =
            (c :: u').takeWhile isWordChar ++
              ((c :: u').dropWhile isWordChar ++ t).takeWhile isWordChar := by
          conv_lhs => rw [← hsplit, List.append_assoc]
          exact List.takeWhile_append_of_pos hallrun
        have hdw : ((c :: u') ++ t).dropWhile isWordChar =
            ((c :: u').dropWhile isWordChar ++ t).dropWhile isWordChar := by
          conv_lhs => rw [← hsplit, List.append_assoc]
          exact List.dropWhile_append_of_pos hallrun
        have hrest_len : ((c :: u').dropWhile isWordChar).length ≤ n := by
          rw [List.dropWhile_cons, if_pos hw]
          have := length_dropWhile_le isWordChar u'
          simp only [List.length_cons] at hlen; omega
        cases hrest_c : (c :: u').dropWhile isWordChar with
        | nil =>
          have ht_take : (((c :: u').dropWhile isWordChar) ++ t).takeWhile
              isWordChar = [] := by
            rw [hrest_c, List.nil_append]
            exact takeWhile_of_headNot t ht
          have ht_drop : (((c :: u').dropWhile isWordChar) ++ t).dropWhile
              isWordChar = t := by
            rw [hrest_c, List.nil_append]
            exact dropWhile_of_headNot t ht
          have hgoal : AllRunsC p k ((c :: u') ++ t) =
              (p ((c :: u').takeWhile isWordChar) (contHead t k) &&
                AllRunsC p k t) := by
            rw [List.cons_append, AllRunsC_cons_word _ _ _ _ hw,
              ← List.cons_append, htw, ht_take, List.append_nil, hdw, ht_drop]
          rw [hgoal, Bool.and_eq_true]
          rw [hrest_c, contHead_nil] at hu1
          exact ⟨hu1, htk⟩
        | cons d rest' =>
          have hd : isWordChar d = false := by
            refine head_dropWhile_not isWordChar (c :: u') d ?_
            rw [hrest_c]; rfl
          have hheadNot : ∀ c0, (((c :: u').dropWhile isWordChar) ++ t).head?
              = some c0 → isWordChar c0 = false := by
            intro c0 hc0
            rw [hrest_c, List.cons_append, List.head?_cons,
              Option.some.injEq] at hc0
            rw [← hc0]; exact hd
          have ht_take : (((c :: u').dropWhile isWordChar) ++ t).takeWhile
              isWordChar = [] := takeWhile_of_headNot _ hheadNot
          have ht_drop : (((c :: u').dropWhile isWordChar) ++ t).dropWhile
              isWordChar = ((c :: u').dropWhile isWordChar) ++ t :=
            dropWhile_of_headNot _ hheadNot
          have hcont : contHead (((c :: u').dropWhile isWordChar) ++ t) k
              = some d := by
            rw [hrest_c, List.cons_append, contHead_cons]
          have hgoal : AllRunsC p k ((c :: u') ++ t) =
              (p ((c :: u').takeWhile isWordChar) (some d) &&
                AllRunsC p k (((c :: u').dropWhile isWordChar) ++ t)) := by
            rw [List.cons_append, AllRunsC_cons_word _ _ _ _ hw,
              ← List.cons_append, htw, ht_take, List.append_nil, hdw, ht_drop,
              hcont]
          rw [hgoal, Bool.and_eq_true]
          constructor
          · rw [hrest_c, contHead_cons] at hu1
            exact hu1
          · exact ih _ t hrest_len ht hu2 htk

/-- `subRuns` sends a string whose head (if any) is non-word to a string
whose head (if any) is that same non-word character. -/
theorem subRuns_headNot (f : List Char → Option Char → List Char)
    (rest : List Char)
    (h : ∀ c, rest.head? = some c → isWordChar c = false) :
    ∀ c, (subRuns f rest).head? = some c → isWordChar c = false := by
  cases rest with
  | nil => intro c hc; simp [subRuns_nil] at hc
  | cons d rest' =>
    have hd : isWordChar d = false := h d rfl
    rw [subRuns_cons_not _ _ _ hd]
    intro c hc
    rw [List.head?_cons, Option.some.injEq] at hc
    rw [← hc]; exact hd

theorem contHead_subRuns (f : List Char → Option Char → List Char)
    (rest : List Char) (k : Option Char)
    (h : ∀ c, rest.head? = some c → isWordChar c = false) :
    contHead (subRuns f rest) k = contHead rest k := by
  cases rest with
  | nil => rw [subRuns_nil]
  | cons d rest' =>
    have hd : isWordChar d = false := h d rfl
    rw [subRuns_cons_not _ _ _ hd, contHead_cons, contHead_cons]

/-- Establishment / preservation in one statement: after one substitution
pass, every run of the output satisfies `p`, provided every run of the
replacement satisfies `p` (with any continuation), and every run of the
input either fires the rule (and so is replaced) or already satisfies `p`. -/
theorem AllRuns_applyRule (p : List Char → Option Char → Bool) (R : SubRule)
    (hrepl : ∀ k, AllRunsC p k R.repl = true) :
    ∀ (n : Nat) (s : List Char), s.length ≤ n →
      AllRuns (fun r nc => ruleFires R r nc || p r nc) s = true →
      AllRuns p (applyRule R s) = true := by
  intro n
  induction n with
  | zero =>
    intro s hs _
    have : s = [] := List.length_eq_zero.mp (Nat.le_zero.mp hs)
    subst this; rfl
  | succ n ih =>
    intro s hs h
    cases s with
    | nil => rfl
    | cons c s' =>
      cases hw : isWordChar c with
      | false =>
        unfold applyRule AllRuns at *
        rw [subRuns_cons_not _ _ _ hw, AllRunsC_cons_not _ _ _ _ hw]
        rw [AllRunsC_cons_not _ _ _ _ hw] at h
        exact ih s' (by simp at hs; omega) h
      | true =>
        unfold applyRule AllRuns at *
        rw [subRuns_cons_word _ _ _ hw]
        rw [AllRunsC_cons_word _ _ _ _ hw, contHead_none,
          Bool.and_eq_true] at h
        obtain ⟨h1, h2⟩ := h
        have hrestNot : ∀ c0, ((c :: s').dropWhile isWordChar).head?
            = some c0 → isWordChar c0 = false :=
          fun c0 hc0 => head_dropWhile_not isWordChar (c :: s') c0 hc0
        have hrest_len : ((c :: s').dropWhile isWordChar).length ≤ n := by
          rw [List.dropWhile_cons, if_pos hw]
          have := length_dropWhile_le isWordChar s'
          simp only [List.length_cons] at hs; omega
        have hT : AllRunsC p none
            (subRuns (fun run nc => if ruleFires R run nc then R.repl
              else run) ((c :: s').dropWhile isWordChar)) = true :=
          ih _ hrest_len h2
        have hTnot := subRuns_headNot
          (fun run nc => if ruleFires R run nc then R.repl else run)
          ((c :: s').dropWhile isWordChar) hrestNot
        have hcont : contHead
            (subRuns (fun run nc => if ruleFires R run nc then R.repl
              else run) ((c :: s').dropWhile isWordChar)) none
            = ((c :: s').dropWhile isWordChar).head? := by
          rw [contHead_subRuns _ _ _ hrestNot, contHead_none]
        refine AllRunsC_append p none _ _ _ (Nat.le_refl _) hTnot ?_ hT
        rw [hcont]
        cases hfire : ruleFires R ((c :: s').takeWhile isWordChar)
            ((c :: s').dropWhile isWordChar).head? with
        | true =>
          rw [if_pos rfl]
          exact hrepl _
        | false =>
          rw [if_neg (by simp)]
          have hrun_cons : (c :: s').takeWhile isWordChar =
              c :: s'.takeWhile isWordChar := by
            rw [List.takeWhile_cons, if_pos hw]
          rw [hrun_cons]
          rw [AllRunsC_single_run]
          · rw [← hrun_cons]
            rw [hfire, Bool.false_or] at h1
            exact h1
          · rw [← hrun_cons]
            exact fun x hx => List.mem_takeWhile_imp hx

/-- Bridge from the decidable minimum-run-length check to an arbitrary
predicate that holds on runs of length at least 3. -/
theorem AllRunsC_of_min3 (p : List Char → Option Char → Bool)
    (hp : ∀ r nc, 3 ≤ r.length → p r nc = true) :
    ∀ (n : Nat) (u : List Char) (k : Option Char), u.length ≤ n →
      AllRuns (fun r _ => decide (3 ≤ r.length)) u = true →
      AllRunsC p k u = true := by
  intro n
  induction n with
  | zero =>
    intro u k hu _
    have : u = [] := List.length_eq_zero.mp (Nat.le_zero.mp hu)
    subst this; rfl
  | succ n ih =>
    intro u k hu h
    cases u with
    | nil => rfl
    | cons c u' =>
      cases hw : isWordChar c with
      | false =>
        unfold AllRuns at h
        rw [AllRunsC_cons_not _ _ _ _ hw] at h ⊢
        exact ih u' k (by simp at hu; omega) h
      | true =>
        unfold AllRuns at h
        rw [AllRunsC_cons_word _ _ _ _ hw, Bool.and_eq_true] at h ⊢
        obtain ⟨h1, h2⟩ := h
        have hlen : ((c :: u').dropWhile isWordChar).length ≤ n := by
          rw [List.dropWhile_cons, if_pos hw]
          have := length_dropWhile_le isWordChar u'
          simp only [List.length_cons] at hu; omega
        exact ⟨hp _ _ (of_decide_eq_true h1), ih _ k hlen h2⟩

theorem ciEq_length {a b : List Char} (h : ciEq a b = true) :
    a.length = b.length := by
  unfold ciEq toLowerList at h
  have heq : a.map Char.toLower = b.map Char.toLower := beq_iff_eq.mp h
  have := congrArg List.length heq
  simpa using this

/-- A rule whose abbreviation has at most two characters cannot fire on a
run of three or more characters. -/
theorem ruleFires_false_of_long (R : SubRule) (h2 : R.abbr.length ≤ 2)
    (r : List Char) (nc : Option Char) (hr : 3 ≤ r.length) :
    ruleFires R r nc = false := by
  unfold ruleFires
  cases hc : ciEq r R.abbr with
  | false => simp
  | true =>
    have := ciEq_length hc
    omega

/-- Every rule of the source tables has an abbreviation of at most two
characters. -/
theorem RULES_abbr_short : (RULES.all fun R => decide (R.abbr.length ≤ 2))
    = true := by decide

/-- Every maximal run of every replacement text has at least three
characters. -/
theorem RULES_repl_min3 :
    (RULES.all fun R => AllRuns (fun r _ => decide (3 ≤ r.length)) R.repl)
    = true := by decide

/-- Replacement texts never themselves fire any rule of the tables, run by
run, whatever the continuation. -/
theorem RULES_repl_noFire (R R' : SubRule) (hR : R ∈ RULES) (hR' : R' ∈ RULES)
    (k : Option Char) :
    AllRunsC (fun r nc => !ruleFires R r nc) k R'.repl = true := by
  have h2 : R.abbr.length ≤ 2 :=
    of_decide_eq_true (List.all_eq_true.mp RULES_abbr_short R hR)
  have hmin : AllRuns (fun r _ => decide (3 ≤ r.length)) R'.repl = true :=
    List.all_eq_true.mp RULES_repl_min3 R' hR'
  refine AllRunsC_of_min3 _ ?_ R'.repl.length R'.repl k (Nat.le_refl _) hmin
  intro r nc hr
  rw [ruleFires_false_of_long R h2 r nc hr]
  rfl

/-- Folding substitution passes over rules drawn from the tables preserves
the no-fire invariant for a fixed rule `R` of the tables. -/
theorem AllRuns_foldl_preserve (R : SubRule) (hR : R ∈ RULES) :
    ∀ (rules : List SubRule), (∀ R' ∈ rules, R' ∈ RULES) →
      ∀ (s : List Char),
        AllRuns (fun r nc => !ruleFires R r nc) s = true →
        AllRuns (fun r nc => !ruleFires R r nc)
          (rules.foldl (fun acc R' => applyRule R' acc) s) = true := by
  intro rules
  induction rules with
  | nil => intro _ s h; exact h
  | cons R' rs ih =>
    intro hmem s h
    rw [List.foldl_cons]
    refine ih (fun x hx => hmem x (List.mem_cons_of_mem _ hx)) _ ?_
    refine AllRuns_applyRule _ R'
      (RULES_repl_noFire R R' hR (hmem R' (List.mem_cons_self _ _)))
      s.length s (Nat.le_refl _) ?_
    refine AllRunsC_mono _ _ ?_ s.length s none (Nat.le_refl _) h
    intro r nc hp
    rw [hp, Bool.or_true]

/-- After `expandCore`, no rule of the tables fires on any run: each rule's
own pass eliminates its matches, and later passes cannot re-create any. -/
theorem expandCore_noFire (R : SubRule) (hR : R ∈ RULES) (s : List Char) :
    AllRuns (fun r nc => !ruleFires R r nc) (expandCore s) = true := by
  obtain ⟨l1, l2, hsplit⟩ := List.append_of_mem hR
  have hmem2 : ∀ R' ∈ l2, R' ∈ RULES := by
    intro R' hx
    rw [hsplit]
    exact List.mem_append_right _ (List.mem_cons_of_mem _ hx)
  rw [expandCore, hsplit, List.foldl_append, List.foldl_cons]
  refine AllRuns_foldl_preserve R hR l2 hmem2 _ ?_
  refine AllRuns_applyRule _ R (fun k => RULES_repl_noFire R R hR hR k)
    _ _ (Nat.le_refl _) ?_
  refine AllRunsC_trivial _ ?_ _ _ none (Nat.le_refl _)
  intro r nc
  cases h : ruleFires R r nc <;> simp [h]

/-- A string on which no rule fires is a fixed point of the whole fold. -/
theorem foldl_applyRule_id (rules : List SubRule) (T : List Char)
    (h : ∀ R ∈ rules, applyRule R T = T) :
    rules.foldl (fun acc R => applyRule R acc) T = T := by
  induction rules with
  | nil => rfl
  | cons R rs ih =>
    rw [List.foldl_cons, h R (List.mem_cons_self _ _)]
    exact ih (fun R' hx => h R' (List.mem_cons_of_mem _ hx))

theorem expandCore_idem (s : List Char) :
    expandCore (expandCore s) = expandCore s := by
  have hfix : ∀ R ∈ RULES, applyRule R (expandCore s) = expandCore s := by
    intro R hR
    exact applyRule_id_of_allRuns R (expandCore s).length _ (Nat.le_refl _)
      (expandCore_noFire R hR s)
  exact foldl_applyRule_id RULES (expandCore s) hfix

/-!
## Claims about `expand_abbreviations`
-/

theorem toList_mk (l : List Char) : (String.mk l).toList = l := rfl

/-- Claim C6: `expand_abbreviations` is idempotent on its own output:
for every input, expanding twice equals expanding once. -/
theorem expand_abbreviations_idem (o : Option String) :
    expand_abbreviations (expand_abbreviations o) = expand_abbreviations o := by
  cases o with
  | none => rfl
  | some t =>
    by_cases ht : t = ""
    · subst ht; rfl
    · have h1 : expand_abbreviations (some t)
          = some (String.mk (expandCore t.toList)) := by
        simp only [expand_abbreviations, if_neg ht]
      rw [h1]
      by_cases h2 : String.mk (expandCore t.toList) = ""
      · simp only [expand_abbreviations, if_pos h2]
      · simp only [expand_abbreviations, if_neg h2]
        rw [toList_mk, expandCore_idem]

/-- Claim C5 counterexample: the substitution is case-insensitive
(`re.IGNORECASE`), so the lowercase direction-preposition "in" of
"in Rock Rapids" IS expanded to "Indiana", contrary to the claim that the
preposition sense of "IN" is not expanded. -/
theorem expand_in_preposition_misfires :
    expand_abbreviations (some "in Rock Rapids")
      = some "Indiana Rock Rapids" := by decide

/-- Claim C5 (amended): `expand_abbreviations` replaces abbreviations only
when they occur as standalone word-boundary-delimited tokens: any string
none of whose maximal word-character runs matches a rule is returned
unchanged, so occurrences inside longer words (such as "IN" inside
"INTERSECTION") are never replaced; however, matching is case-insensitive,
so the lowercase preposition "in" is expanded to "Indiana". -/
theorem expand_abbreviations_standalone_only (s : List Char)
    (h : (RULES.all fun R => AllRuns (fun r nc => !ruleFires R r nc) s)
      = true) :
    expandCore s = s ∧
    expand_abbreviations (some "INTERSECTION") = some "INTERSECTION" ∧
    expand_abbreviations (some "in Rock Rapids")
      = some "Indiana Rock Rapids" := by
  refine ⟨?_, by decide, by decide⟩
  refine foldl_applyRule_id RULES s ?_
  intro R hR
  exact applyRule_id_of_allRuns R s.length s (Nat.le_refl _)
    (List.all_eq_true.mp h R hR)

theorem expand_abbreviations_standalone_only_witness :
    expandCore "INTERSECTION".toList = "INTERSECTION".toList :=
  (expand_abbreviations_standalone_only "INTERSECTION".toList (by decide)).1

/-- Claim C7: the three rule tables are applied in the source order (state
codes, then bounded directions, then bare directions), so "SB" becomes
"Southbound" (never partially consumed by the bare "S" rule), and
`expand_abbreviations "IA-9 EB"` is exactly "Iowa-9 Eastbound": it contains
"Iowa" and "Eastbound" and has no residual standalone "IA" or "EB" token. -/
theorem expand_order_and_round_trip :
    expand_abbreviations (some "SB") = some "Southbound" ∧
    expand_abbreviations (some "IA-9 EB") = some "Iowa-9 Eastbound" ∧
    containsSub "Iowa".toList "Iowa-9 Eastbound".toList = true ∧
    containsSub "Eastbound".toList "Iowa-9 Eastbound".toList = true ∧
    AllRuns (fun r _ => !(ciEq r "IA".toList || ciEq r "EB".toList))
      "Iowa-9 Eastbound".toList = true := by
  decide

/-- Claim C10: the `if not text` guard of `expand_abbreviations` returns
falsy inputs (`None` and the empty string) unchanged, performing no
substitution. -/
theorem expand_abbreviations_falsy_guard :
    expand_abbreviations none = none ∧
    expand_abbreviations (some "") = some "" := ⟨rfl, by decide⟩

/-!
## Lemmas about the capture loop
-/

theorem vadStep_loud (s : VADState) (data : List Int)
    (h : frameLoud data = true) : vadStep s data = ⟨0, true, 5⟩ := by
  simp [vadStep, h]

/-- On a silent frame the new countdown is `r - 1` (Nat subtraction covers
the `if recent_speech_frames > 0` guard), and `silence_duration` increments
exactly when speech was detected and the new countdown is zero - in the
same frame as the decrement when the countdown goes from 1 to 0. -/
theorem vadStep_quiet (sd : Nat) (b : Bool) (r : Nat) (data : List Int)
    (h : frameLoud data = false) :
    vadStep ⟨sd, b, r⟩ data =
      ⟨if b && decide (r - 1 = 0) then sd + 1 else sd, b, r - 1⟩ := by
  cases r with
  | zero => simp [vadStep, h]
  | succ n => simp [vadStep, h]

theorem captureAux_step_stop (mic : Nat → List Int) (limit fc fuel : Nat)
    (s : VADState) (frames : List (List Int))
    (h : stopCond limit (vadStep s (mic fc)) = true) :
    captureAux mic limit fc (fuel + 1) s frames
      = ⟨frames ++ [mic fc], vadStep s (mic fc), true⟩ := by
  simp [captureAux, h]

theorem captureAux_step_go (mic : Nat → List Int) (limit fc fuel : Nat)
    (s : VADState) (frames : List (List Int))
    (h : stopCond limit (vadStep s (mic fc)) = false) :
    captureAux mic limit fc (fuel + 1) s frames
      = captureAux mic limit (fc + 1) fuel (vadStep s (mic fc))
          (frames ++ [mic fc]) := by
  simp [captureAux, h]

/-- With every frame below threshold, the loop never detects speech and
never stops early: it runs the full fuel and appends one frame per
iteration. -/
theorem captureAux_quiet (mic : Nat → List Int) (limit chunk : Nat)
    (hq : ∀ i, frameLoud (mic i) = false)
    (hlen : ∀ i, (mic i).length = chunk) :
    ∀ (fuel fc : Nat) (s : VADState) (frames : List (List Int)),
      s.has_detected_speech = false →
      (captureAux mic limit fc fuel s frames).early_stop = false ∧
      (captureAux mic limit fc fuel s frames).frames.length
        = frames.length + fuel ∧
      (captureAux mic limit fc fuel s frames).frames.flatten.length
        = frames.flatten.length + fuel * chunk := by
  intro fuel
  induction fuel with
  | zero =>
    intro fc s frames _
    refine ⟨rfl, by simp [captureAux], by simp [captureAux]⟩
  | succ n ih =>
    intro fc s frames hs
    have hstep : (vadStep s (mic fc)).has_detected_speech = false := by
      obtain ⟨sd, b, r⟩ := s
      simp only at hs
      subst hs
      rw [vadStep_quiet _ _ _ _ (hq fc)]
    have hstop : stopCond limit (vadStep s (mic fc)) = false := by
      simp [stopCond, hstep]
    rw [captureAux_step_go mic limit fc n s frames hstop]
    obtain ⟨ih1, ih2, ih3⟩ := ih (fc + 1) _ (frames ++ [mic fc]) hstep
    refine ⟨ih1, ?_, ?_⟩
    · rw [ih2]
      simp only [List.length_append, List.length_cons, List.length_nil]
      omega
    · rw [ih3, List.flatten_append]
      simp only [List.length_append, List.flatten_cons, List.flatten_nil,
        List.append_nil, hlen fc]
      ring

/-- Variant of `captureAux_quiet` for arbitrary (possibly ragged) frame
sizes: below-threshold frames never set `has_detected_speech`, so the loop
never stops early. -/
theorem captureAux_quiet_early (mic : Nat → List Int) (limit : Nat)
    (hq : ∀ i, frameLoud (mic i) = false) :
    ∀ (fuel fc : Nat) (s : VADState) (frames : List (List Int)),
      s.has_detected_speech = false →
      (captureAux mic limit fc fuel s frames).early_stop = false := by
  intro fuel
  induction fuel with
  | zero => intro fc s frames _; rfl
  | succ n ih =>
    intro fc s frames hs
    have hstep : (vadStep s (mic fc)).has_detected_speech = false := by
      obtain ⟨sd, b, r⟩ := s
      simp only at hs
      subst hs
      rw [vadStep_quiet _ _ _ _ (hq fc)]
    have hstop : stopCond limit (vadStep s (mic fc)) = false := by
      simp [stopCond, hstep]
    rw [captureAux_step_go mic limit fc n s frames hstop]
    exact ih (fc + 1) _ (frames ++ [mic fc]) hstep

/-- Unless the stop condition already holds of the pre-loop state, the loop
stops early exactly when the final state satisfies the stop condition. -/
theorem captureAux_early_iff (mic : Nat → List Int) (limit : Nat) :
    ∀ (fuel fc : Nat) (s : VADState) (frames : List (List Int)),
      stopCond limit s = false →
      (captureAux mic limit fc fuel s frames).early_stop
        = stopCond limit (captureAux mic limit fc fuel s frames).state := by
  intro fuel
  induction fuel with
  | zero =>
    intro fc s frames hs
    exact hs.symm
  | succ n ih =>
    intro fc s frames hs
    cases hst : stopCond limit (vadStep s (mic fc)) with
    | true =>
      rw [captureAux_step_stop mic limit fc n s frames hst]
      exact hst.symm
    | false =>
      rw [captureAux_step_go mic limit fc n s frames hst]
      exact ih (fc + 1) _ (frames ++ [mic fc]) hst

/-!
## Claims about `record_audio`
-/

/-- Claim C2: throughout the capture loop, (1) a frame at or above the
speech threshold resets `silence_duration` to 0; (2) the loop stops early
exactly when the (updated) state satisfies `speechDetected AND
silenceRunLength >= silenceFrameLimit AND recentSpeechCountdown == 0`; and
(3) if no frame ever reaches the threshold, the loop never stops early. -/
theorem vad_invariant :
    (∀ (s : VADState) (data : List Int), frameLoud data = true →
      (vadStep s data).silence_duration = 0) ∧
    (∀ (mic : Nat → List Int) (limit max_frames : Nat),
      (record_audio mic limit max_frames).early_stop
        = stopCond limit (record_audio mic limit max_frames).state) ∧
    (∀ (mic : Nat → List Int) (limit max_frames : Nat),
      (∀ i, frameLoud (mic i) = false) →
      (record_audio mic limit max_frames).early_stop = false) := by
  refine ⟨?_, ?_, ?_⟩
  · intro s data h
    rw [vadStep_loud s data h]
  · intro mic limit max_frames
    exact captureAux_early_iff mic limit max_frames 0 ⟨0, false, 0⟩ [] rfl
  · intro mic limit max_frames hq
    exact captureAux_quiet_early mic limit hq max_frames 0 ⟨0, false, 0⟩ []
      rfl

theorem vad_invariant_witness :
    (vadStep ⟨7, true, 0⟩ [1600]).silence_duration = 0 ∧
    (record_audio (fun _ => [0]) 2 4).early_stop
      = stopCond 2 (record_audio (fun _ => [0]) 2 4).state ∧
    (record_audio (fun _ => [0]) 2 4).early_stop = false :=
  ⟨vad_invariant.1 ⟨7, true, 0⟩ [1600] (by decide),
   vad_invariant.2.1 (fun _ => [0]) 2 4,
   vad_invariant.2.2 (fun _ => [0]) 2 4 (fun _ => rfl)⟩

/-- Claim C9: with every frame's RMS below the threshold, `record_audio`
runs the loop for exactly `max_frames` iterations with no early stop, and
the returned buffer holds `max_frames * chunk` samples when every frame has
`chunk` samples. -/
theorem record_audio_all_quiet (mic : Nat → List Int)
    (limit max_frames chunk : Nat)
    (hq : ∀ i, frameLoud (mic i) = false)
    (hlen : ∀ i, (mic i).length = chunk) :
    (record_audio mic limit max_frames).early_stop = false ∧
    (record_audio mic limit max_frames).frames.length = max_frames ∧
    (bufferSamples (record_audio mic limit max_frames)).length
      = max_frames * chunk := by
  unfold record_audio bufferSamples
  obtain ⟨h1, h2, h3⟩ := captureAux_quiet mic limit chunk hq hlen max_frames 0
    ⟨0, false, 0⟩ [] rfl
  refine ⟨h1, ?_, ?_⟩
  · rw [h2]; simp
  · rw [h3]; simp

theorem record_audio_all_quiet_witness :
    (record_audio (fun _ => [0, 0]) 1 3).early_stop = false ∧
    (record_audio (fun _ => [0, 0]) 1 3).frames.length = 3 ∧
    (bufferSamples (record_audio (fun _ => [0, 0]) 1 3)).length = 3 * 2 :=
  record_audio_all_quiet (fun _ => [0, 0]) 1 3 2 (fun _ => rfl)
    (fun _ => rfl)

/-- Phase lemma: `k >= 1` consecutive loud frames leave the loop running
with state `(0, speech, countdown 5)`, appending `k` frames. -/
theorem captureAux_loud_run (mic : Nat → List Int) (limit : Nat) :
    ∀ (k fc rest : Nat) (s : VADState) (frames : List (List Int)),
      1 ≤ k → (∀ i, fc ≤ i → i < fc + k → frameLoud (mic i) = true) →
      ∃ frames', captureAux mic limit fc (k + rest) s frames
          = captureAux mic limit (fc + k) rest ⟨0, true, 5⟩ frames'
        ∧ frames'.length = frames.length + k := by
  intro k
  induction k with
  | zero => intro fc rest s frames hk; omega
  | succ n ih =>
    intro fc rest s frames _ hloud
    have hl : frameLoud (mic fc) = true := hloud fc (Nat.le_refl _) (by omega)
    have hs' : vadStep s (mic fc) = ⟨0, true, 5⟩ := vadStep_loud s _ hl
    have hstop : stopCond limit (vadStep s (mic fc)) = false := by
      rw [hs']; simp [stopCond]
    have hfuel : n + 1 + rest = (n + rest) + 1 := by omega
    rw [hfuel, captureAux_step_go mic limit fc (n + rest) s frames hstop, hs']
    cases n with
    | zero =>
      refine ⟨frames ++ [mic fc], ?_, by simp⟩
      rw [Nat.zero_add]
    | succ m =>
      obtain ⟨fr', heq, hlen⟩ := ih (fc + 1) rest ⟨0, true, 5⟩
        (frames ++ [mic fc]) (by omega)
        (fun i hi1 hi2 => hloud i (by omega) (by omega))
      refine ⟨fr', ?_, by simp at hlen ⊢; omega⟩
      rw [heq]
      have hfc : fc + 1 + (m + 1) = fc + (m + 1 + 1) := by omega
      rw [hfc]

/-- Phase lemma: `r` silent frames starting with countdown `r + 1` count the
countdown down to 1 with no silence accumulated, appending `r` frames. -/
theorem captureAux_countdown (mic : Nat → List Int) (limit : Nat) :
    ∀ (r fc rest : Nat) (frames : List (List Int)),
      (∀ i, fc ≤ i → frameLoud (mic i) = false) →
      ∃ frames', captureAux mic limit fc (r + rest) ⟨0, true, r + 1⟩ frames
          = captureAux mic limit (fc + r) rest ⟨0, true, 1⟩ frames'
        ∧ frames'.length = frames.length + r := by
  intro r
  induction r with
  | zero =>
    intro fc rest frames _
    exact ⟨frames, by norm_num, rfl⟩
  | succ n ih =>
    intro fc rest frames hq
    have hstep : vadStep ⟨0, true, n + 1 + 1⟩ (mic fc) = ⟨0, true, n + 1⟩ := by
      rw [vadStep_quiet _ _ _ _ (hq fc (Nat.le_refl _))]
      have h1 : n + 1 + 1 - 1 = n + 1 := by omega
      have h2 : decide (n + 1 = 0) = false :=
        decide_eq_false_iff_not.mpr (by omega)
      rw [h1, h2]
      simp
    have hstop : stopCond limit ⟨0, true, n + 1⟩ = false := by
      have h2 : decide (n + 1 = 0) = false :=
        decide_eq_false_iff_not.mpr (by omega)
      simp [stopCond, h2]
    have hfuel : n + 1 + rest = (n + rest) + 1 := by omega
    rw [hfuel, captureAux_step_go mic limit fc (n + rest) _ frames
      (by rw [hstep]; exact hstop), hstep]
    obtain ⟨fr', heq, hlen⟩ := ih (fc + 1) rest (frames ++ [mic fc])
      (fun i hi => hq i (by omega))
    refine ⟨fr', ?_, by simp at hlen ⊢; omega⟩
    rw [heq]
    have hfc : fc + 1 + n = fc + (n + 1) := by omega
    rw [hfc]

/-- Phase lemma: from `silence_duration = sd`, countdown 0, speech detected,
`m = limit - sd >= 1` further silent frames make the loop break early. -/
theorem captureAux_silence_run (mic : Nat → List Int) (limit : Nat) :
    ∀ (m : Nat), 1 ≤ m → ∀ (fc rest sd : Nat) (frames : List (List Int)),
      (∀ i, fc ≤ i → frameLoud (mic i) = false) → sd + m = limit →
      ∃ fr fin, captureAux mic limit fc (m + rest) ⟨sd, true, 0⟩ frames
          = ⟨fr, fin, true⟩ ∧ fr.length = frames.length + m := by
  intro m
  induction m with
  | zero => intro h; omega
  | succ n ih =>
    intro _ fc rest sd frames hq hsum
    have hstep : vadStep ⟨sd, true, 0⟩ (mic fc) = ⟨sd + 1, true, 0⟩ := by
      rw [vadStep_quiet _ _ _ _ (hq fc (Nat.le_refl _))]
      simp
    cases n with
    | zero =>
      have hstop : stopCond limit ⟨sd + 1, true, 0⟩ = true := by
        simp [stopCond]
        omega
      rw [show (0 : Nat) + 1 + rest = rest + 1 from by omega]
      rw [captureAux_step_stop mic limit fc rest _ frames
        (by rw [hstep]; exact hstop), hstep]
      exact ⟨frames ++ [mic fc], ⟨sd + 1, true, 0⟩, rfl, by simp⟩
    | succ k =>
      have hstop : stopCond limit ⟨sd + 1, true, 0⟩ = false := by
        simp [stopCond]
        omega
      rw [show k + 1 + 1 + rest = (k + 1 + rest) + 1 from by omega]
      rw [captureAux_step_go mic limit fc (k + 1 + rest) _ frames
        (by rw [hstep]; exact hstop), hstep]
      obtain ⟨fr, fin, heq, hlen⟩ := ih (by omega) (fc + 1) rest (sd + 1)
        (frames ++ [mic fc]) (fun i hi => hq i (by omega)) (by omega)
      exact ⟨fr, fin, heq, by simp at hlen ⊢; omega⟩

/-- Phase lemma: from countdown 1 and no silence yet, `limit` further
silent frames end the capture (the first of them both zeroes the countdown
and counts as the first silent frame). -/
theorem captureAux_final_phase (mic : Nat → List Int) (limit : Nat)
    (hlim : 1 ≤ limit) :
    ∀ (fc rest : Nat) (frames : List (List Int)),
      (∀ i, fc ≤ i → frameLoud (mic i) = false) →
      ∃ fr fin, captureAux mic limit fc (limit + rest) ⟨0, true, 1⟩ frames
          = ⟨fr, fin, true⟩ ∧ fr.length = frames.length + limit := by
  intro fc rest frames hq
  have hstep : vadStep ⟨0, true, 1⟩ (mic fc) = ⟨1, true, 0⟩ := by
    rw [vadStep_quiet _ _ _ _ (hq fc (Nat.le_refl _))]
    simp
  cases limit with
  | zero => omega
  | succ l =>
    cases l with
    | zero =>
      have hstop : stopCond 1 ⟨1, true, 0⟩ = true := by decide
      rw [show (1 : Nat) + rest = rest + 1 from by omega]
      rw [captureAux_step_stop mic 1 fc rest _ frames
        (by rw [hstep]; exact hstop), hstep]
      exact ⟨frames ++ [mic fc], ⟨1, true, 0⟩, rfl, by simp⟩
    | succ k =>
      have hstop : stopCond (k + 1 + 1) ⟨1, true, 0⟩ = false := by
        simp [stopCond]
      rw [show k + 1 + 1 + rest = (k + 1 + rest) + 1 from by omega]
      rw [captureAux_step_go mic (k + 1 + 1) fc (k + 1 + rest) _ frames
        (by rw [hstep]; exact hstop), hstep]
      obtain ⟨fr, fin, heq, hlen⟩ := captureAux_silence_run mic (k + 1 + 1)
        (k + 1) (by omega) (fc + 1) rest 1 (frames ++ [mic fc])
        (fun i hi => hq i (by omega)) (by omega)
      exact ⟨fr, fin, heq, by simp at hlen ⊢; omega⟩

/-- Claim C1 counterexample: with frames 0-9 at RMS 1600 (above the 1500
threshold), silence thereafter, countdown buffer 5 and
`silenceFrameLimit = 3`, the loop appends 17 frames, not
`10 + 5 + 3 = 18`; and the claimed equivalence fails because in the silent
frame where the countdown goes from 1 to 0 the loop both decrements the
countdown and increments the silence run (the code uses two sequential
`if`s, not `if`/`else`). -/
theorem record_audio_stops_one_frame_early :
    (record_audio (fun i => if i < 10 then [1600] else [0]) 3 30).frames.length
      = 17 ∧
    ¬ ((record_audio (fun i => if i < 10 then [1600] else [0])
        3 30).frames.length = 10 + 5 + 3) ∧
    vadStep ⟨0, true, 1⟩ [0] = ⟨1, true, 0⟩ := by decide

/-- Claim C1 (amended): for a frame sequence at or above the speech
threshold for frames 0-9 and below it thereafter, with countdown buffer 5
and silence limit `limit >= 1`, the capture loop stops early after
appending exactly `9 + 5 + limit` frames - one frame before the claimed
`10 + 5 + limit` - because the silent frame that brings the countdown from
1 to 0 also increments the silence run in the same iteration. -/
theorem record_audio_loud_then_silent (mic : Nat → List Int)
    (limit max_frames : Nat)
    (hloud : ∀ i, i < 10 → frameLoud (mic i) = true)
    (hquiet : ∀ i, 10 ≤ i → frameLoud (mic i) = false)
    (hlim : 1 ≤ limit) (hmax : 14 + limit ≤ max_frames) :
    (record_audio mic limit max_frames).early_stop = true ∧
    (record_audio mic limit max_frames).frames.length = 9 + 5 + limit := by
  obtain ⟨e, he⟩ : ∃ e, max_frames = 10 + (4 + (limit + e)) :=
    ⟨max_frames - (14 + limit), by omega⟩
  unfold record_audio
  rw [he]
  obtain ⟨f1, h1, hl1⟩ := captureAux_loud_run mic limit 10 0
    (4 + (limit + e)) ⟨0, false, 0⟩ [] (by omega)
    (fun i hi1 hi2 => hloud i (by omega))
  rw [show (0 : Nat) + 10 = 10 from by norm_num] at h1
  rw [h1]
  obtain ⟨f2, h2, hl2⟩ := captureAux_countdown mic limit 4 10
    (limit + e) f1 (fun i hi => hquiet i (by omega))
  rw [show (4 : Nat) + 1 = 5 from by norm_num,
    show (10 : Nat) + 4 = 14 from by norm_num] at h2
  rw [h2]
  obtain ⟨fr, fin, h3, hl3⟩ := captureAux_final_phase mic limit hlim 14 e f2
    (fun i hi => hquiet i (by omega))
  rw [h3]
  refine ⟨rfl, ?_⟩
  show fr.length = 9 + 5 + limit
  simp only [List.length_nil] at hl1
  omega

theorem record_audio_loud_then_silent_witness :
    (record_audio (fun i => if i < 10 then [1600] else [0])
      3 30).early_stop = true ∧
    (record_audio (fun i => if i < 10 then [1600] else [0])
      3 30).frames.length = 9 + 5 + 3 :=
  record_audio_loud_then_silent (fun i => if i < 10 then [1600] else [0])
    3 30
    (fun i hi => by simp only [if_pos hi]; decide)
    (fun i hi => by simp only [if_neg (by omega : ¬ i < 10)]; decide)
    (by norm_num) (by norm_num)

/-!
## Claims about `transcribe_audio` and `extract_routes`
-/

/-- Claim C3: for every zero-length audio buffer, `transcribe_audio` takes
the empty-input failure path (prints the error and returns `None`, the
outcome the specification names `EmptyInputError`) and issues no
recognition request to the backend client. -/
theorem transcribe_audio_empty_input (recognize : List Nat → RecognizeResult)
    (streaming : List Nat → StreamResult) (audio_data : List Nat)
    (h : audio_data.length = 0) :
    transcribe_audio recognize streaming audio_data
      = (TranscribeOutcome.noneResult, 0) := by
  have : audio_data = [] := List.length_eq_zero.mp h
  subst this
  rfl

theorem transcribe_audio_empty_input_witness :
    transcribe_audio (fun _ => RecognizeResult.exn)
      (fun _ => StreamResult.exn) [] = (TranscribeOutcome.noneResult, 0) :=
  transcribe_audio_empty_input (fun _ => RecognizeResult.exn)
    (fun _ => StreamResult.exn) [] rfl

/-- Claim C4 counterexample: when the backend's parsed JSON carries the
no-route error marker (with `input_was` populated), `extract_routes`
returns the bare `None`, the very same value it returns for malformed
JSON - not a distinct `NoRouteDetected` outcome carrying the input text. -/
theorem extract_routes_error_marker_not_distinct :
    (extract_routes
      (fun _ => LLMCallResult.ok (LLMResponse.parsed
        ⟨some "No route instructions detected in transcription", none, none,
         none, [], some false, some "The weather today is sunny"⟩))
      "The weather today is sunny").1 = ExtractResult.noneResult ∧
    (extract_routes (fun _ => LLMCallResult.ok LLMResponse.invalidJson)
      "The weather today is sunny").1 = ExtractResult.noneResult ∧
    (extract_routes
      (fun _ => LLMCallResult.ok (LLMResponse.parsed
        ⟨some "No route instructions detected in transcription", none, none,
         none, [], some false, some "The weather today is sunny"⟩))
      "The weather today is sunny").1
      = (extract_routes (fun _ => LLMCallResult.ok LLMResponse.invalidJson)
        "The weather today is sunny").1 := by decide

/-- Claim C4 (amended): when the parsed object carries a truthy `error`
marker, `extract_routes` logs a warning and returns `None` - the same
return value as the malformed-JSON (`MalformedResponseError`) path - so the
no-route outcome is not distinguishable from a generic failure in the
returned value and does not carry the original input text. -/
theorem extract_routes_error_marker (llm llm' : ChatCall → LLMCallResult)
    (t : String) (d : RouteData)
    (h : llm ⟨"gpt-4o", ROUTE_EXTRACTION_PROMPT, userContent t⟩
      = LLMCallResult.ok (LLMResponse.parsed d))
    (herr : pyTruthyStr d.error = true)
    (h' : llm' ⟨"gpt-4o", ROUTE_EXTRACTION_PROMPT, userContent t⟩
      = LLMCallResult.ok LLMResponse.invalidJson) :
    (extract_routes llm t).1 = ExtractResult.noneResult ∧
    (extract_routes llm t).1 = (extract_routes llm' t).1 := by
  simp only [extract_routes]
  rw [h, h']
  simp [herr]

theorem extract_routes_error_marker_witness :
    (extract_routes
      (fun _ => LLMCallResult.ok (LLMResponse.parsed
        ⟨some "No route instructions detected", none, none, none, [],
         some false, some "hello"⟩)) "hello").1
      = ExtractResult.noneResult ∧
    (extract_routes
      (fun _ => LLMCallResult.ok (LLMResponse.parsed
        ⟨some "No route instructions detected", none, none, none, [],
         some false, some "hello"⟩)) "hello").1
      = (extract_routes
          (fun _ => LLMCallResult.ok LLMResponse.invalidJson) "hello").1 :=
  extract_routes_error_marker
    (fun _ => LLMCallResult.ok (LLMResponse.parsed
      ⟨some "No route instructions detected", none, none, none, [],
       some false, some "hello"⟩))
    (fun _ => LLMCallResult.ok LLMResponse.invalidJson) "hello"
    ⟨some "No route instructions detected", none, none, none, [],
     some false, some "hello"⟩ rfl (by decide) rfl

/-- Claim C8 counterexample: when GPT-4o fails with `model_not_found` and
the GPT-3.5-turbo retry also fails, `extract_routes` returns the bare
`None` - the same value as for an entirely different original failure
(here invalid JSON) - so the original failure is not surfaced to the caller
in the returned value. -/
theorem extract_routes_fallback_failure_not_surfaced :
    (extract_routes
      (fun c => if c.model == "gpt-4o" then LLMCallResult.exn "model_not_found"
        else LLMCallResult.exn "server down") "x").1
      = ExtractResult.noneResult ∧
    (extract_routes (fun _ => LLMCallResult.ok LLMResponse.invalidJson)
      "x").1 = ExtractResult.noneResult ∧
    (extract_routes
      (fun c => if c.model == "gpt-4o" then LLMCallResult.exn "model_not_found"
        else LLMCallResult.exn "server down") "x").1
      = (extract_routes (fun _ => LLMCallResult.ok LLMResponse.invalidJson)
          "x").1 := by decide

/-- Claim C8 (amended): on a `model_not_found` failure from the primary
GPT-4o call, `extract_routes` retries exactly once against GPT-3.5-turbo
with the identical system prompt and identical transcript (the request list
is exactly those two calls), and returns whatever the fallback returns; if
the retry also raises, the function returns `None` - a generic failure that
does not carry the original failure information. -/
theorem extract_routes_downgrade_retry (llm : ChatCall → LLMCallResult)
    (t msg : String)
    (h : llm ⟨"gpt-4o", ROUTE_EXTRACTION_PROMPT, userContent t⟩
      = LLMCallResult.exn msg)
    (h1 : strContains msg "invalid_api_key" = false)
    (h2 : strContains msg "insufficient_quota" = false)
    (h3 : strContains msg "model_not_found" = true) :
    (extract_routes llm t).2
      = [⟨"gpt-4o", ROUTE_EXTRACTION_PROMPT, userContent t⟩,
         ⟨"gpt-3.5-turbo", ROUTE_EXTRACTION_PROMPT, userContent t⟩] ∧
    (extract_routes llm t).1 = (extract_routes_fallback llm t).1 ∧
    (∀ msg2, llm ⟨"gpt-3.5-turbo", ROUTE_EXTRACTION_PROMPT, userContent t⟩
        = LLMCallResult.exn msg2 →
      (extract_routes llm t).1 = ExtractResult.noneResult) := by
  simp only [extract_routes]
  rw [h]
  simp only [h1, h2, h3, Bool.false_eq_true, if_false, if_true]
  refine ⟨?_, trivial, ?_⟩
  · simp only [extract_routes_fallback]
    cases llm ⟨"gpt-3.5-turbo", ROUTE_EXTRACTION_PROMPT, userContent t⟩ with
    | ok r => cases r <;> rfl
    | exn m => rfl
  · intro msg2 hfb
    simp only [extract_routes_fallback]
    rw [hfb]

theorem extract_routes_downgrade_retry_witness :
    (extract_routes
      (fun c => if c.model == "gpt-4o" then LLMCallResult.exn "model_not_found"
        else LLMCallResult.exn "server down") "x").2
      = [⟨"gpt-4o", ROUTE_EXTRACTION_PROMPT, userContent "x"⟩,
         ⟨"gpt-3.5-turbo", ROUTE_EXTRACTION_PROMPT, userContent "x"⟩] ∧
    (extract_routes
      (fun c => if c.model == "gpt-4o" then LLMCallResult.exn "model_not_found"
        else LLMCallResult.exn "server down") "x").1
      = ExtractResult.noneResult :=
  have h := extract_routes_downgrade_retry
    (fun c => if c.model == "gpt-4o" then LLMCallResult.exn "model_not_found"
      else LLMCallResult.exn "server down") "x" "model_not_found"
    (by decide) (by decide) (by decide) (by decide)
  ⟨h.1, h.2.2 "server down" (by decide)⟩
